import Mathlib

/-!
Verification development for the `iirdsp` IIR filter library (Butterworth
low-pass / high-pass / band-pass designs, a closed-form notch design, a
biquad-cascade runtime and a zero-phase `filtfilt` driver).

The repository ships only the validation harness (`tests/test_coefficients.c`)
and a design note; the core implementation (`iirdsp.c` / `iirdsp.h`) is not
part of the excerpt.  Every definition below whose doc comment starts with
`Modelled from the spec:` is therefore a faithful shallow embedding of the
corresponding operation as the specification describes it, using real numbers
for the C floating-point type `iirdsp_real` and `Except` for the C error
codes (the C functions return `0` on success and a nonzero code on failure,
writing the designed filter into an out-parameter; here the designed filter
is returned in the `ok` branch, so an error carries no partially written
state by construction).
-/

namespace Iirdsp

noncomputable section

/-- Modelled from the spec: the real-number precision tag carried by a filter
(`iirdsp_real` is configured as single or double precision). -/
inductive Prec where
  | single
  | double
deriving DecidableEq

/-- Modelled from the spec: the error taxonomy of the design and batch
operations (`InvalidOrder`, `InvalidFrequency`, `InvalidParameter`,
`InsufficientSamples`). -/
inductive Err where
  | invalidOrder
  | invalidFrequency
  | invalidParameter
  | insufficientSamples
deriving DecidableEq

/-- Modelled from the spec: one biquad second-order section — five real
coefficients `b0 b1 b2 a1 a2` (the leading denominator coefficient `a0` is
implicitly `1`) plus the two state registers `w1 w2` of the transposed
direct-form-II realization. -/
structure Section where
  b0 : ℝ
  b1 : ℝ
  b2 : ℝ
  a1 : ℝ
  a2 : ℝ
  w1 : ℝ
  w2 : ℝ

/-- The five coefficients of a section, with the state registers dropped. -/
def Section.coeffs (s : Section) : ℝ × ℝ × ℝ × ℝ × ℝ :=
  (s.b0, s.b1, s.b2, s.a1, s.a2)

/-- Modelled from the spec: the caller-owned filter value `iirdsp_filter_t` —
an ordered sequence of sections plus the precision tag. -/
structure Filter where
  sections : List Section
  prec : Prec

/-- Modelled from the spec: the fixed maximum section capacity of
`iirdsp_filter_t` (the spec fixes its existence, not its value; `8` is used
here, enough for order 16 low/high-pass and order 8 band-pass). -/
def IIRDSP_MAX_SECTIONS : ℕ := 8

/-- Two filters with identical coefficients and precision tag (their state
registers may differ). -/
def coeffEq (f g : Filter) : Prop :=
  f.prec = g.prec ∧ f.sections.map Section.coeffs = g.sections.map Section.coeffs

/-! ## Biquad cascade runtime -/

/-- Transposed direct-form-II update of a single section on one input sample:
`y = b0*x + w1`, `w1' = b1*x - a1*y + w2`, `w2' = b2*x - a2*y`. -/
def sectionStep (s : Section) (x : ℝ) : Section × ℝ :=
  let y := s.b0 * x + s.w1
  (⟨s.b0, s.b1, s.b2, s.a1, s.a2, s.b1 * x - s.a1 * y + s.w2, s.b2 * x - s.a2 * y⟩, y)

/-- Run one input sample through a cascade of sections in order, each
section's output feeding the next section as its input; returns the updated
sections together with the last section's output (an empty cascade passes the
sample through unchanged). -/
def cascadeRun : List Section → ℝ → List Section × ℝ
  | [], x => ([], x)
  | s :: ss, x =>
    let p := sectionStep s x
    let q := cascadeRun ss p.2
    (p.1 :: q.1, q.2)

/-- Modelled from the spec: `iirdsp_process_sample` — consume one input
sample, advance the per-section state in place, and return one output sample.
It is a total function: there is no error result. -/
def iirdsp_process_sample (f : Filter) (x : ℝ) : Filter × ℝ :=
  let q := cascadeRun f.sections x
  (⟨q.1, f.prec⟩, q.2)

/-- Zero the two state registers of one section, keeping its coefficients. -/
def resetSection (s : Section) : Section :=
  ⟨s.b0, s.b1, s.b2, s.a1, s.a2, 0, 0⟩

/-- Modelled from the spec: `iirdsp_filter_reset` — zero all section state
registers.  It is a total function: there is no error result. -/
def iirdsp_filter_reset (f : Filter) : Filter :=
  ⟨f.sections.map resetSection, f.prec⟩

/-- Feed a whole buffer through the cascade one sample at a time, collecting
the output samples. -/
def runFilter : Filter → List ℝ → Filter × List ℝ
  | f, [] => (f, [])
  | f, x :: xs =>
    let p := iirdsp_process_sample f x
    let q := runFilter p.1 xs
    (q.1, p.2 :: q.2)

/-! ## Zero-phase driver (filtfilt) -/

/-- Modelled from the spec: the fixed reflect-padding margin of
`iirdsp_filtfilt`, proportional to the cascade's effective settling length
(the customary `3 * (number of coefficient taps)` with `2*sections + 1`
denominator taps). -/
def padMargin (f : Filter) : ℕ := 3 * (2 * f.sections.length + 1)

/-- Reflection of the first `P` samples after the initial sample, prepended
in mirrored order (`x_P, …, x_1`). -/
def reflectPre (P : ℕ) (xs : List ℝ) : List ℝ := ((xs.drop 1).take P).reverse

/-- Reflection of the last `P` samples before the final sample, appended in
mirrored order (`x_{n-2}, …, x_{n-1-P}`). -/
def reflectPost (P : ℕ) (xs : List ℝ) : List ℝ := (xs.reverse.drop 1).take P

/-- Modelled from the spec: `iirdsp_filtfilt` — zero-phase batch filtering.
Steps: check the minimum viable length; reset the filter state; run the
forward pass over the reflect-extended buffer; reset again; run the cascade
over the time-reversed intermediate sequence; reverse the result back to
original time order and strip the padding.  The final filter state (the state
left by the backward pass) is returned alongside the output buffer. -/
def iirdsp_filtfilt (f : Filter) (xs : List ℝ) : Except Err (Filter × List ℝ) :=
  if xs.length < padMargin f then .error .insufficientSamples
  else
    let P := padMargin f
    let ext := reflectPre P xs ++ xs ++ reflectPost P xs
    let fwd := runFilter (iirdsp_filter_reset f) ext
    let bwd := runFilter (iirdsp_filter_reset f) fwd.2.reverse
    .ok (bwd.1, (bwd.2.reverse.drop P).take xs.length)

/-! ## Notch design -/

/-- Modelled from the spec: the closed-form digital notch section for center
frequency `f0`, quality factor `q` and sampling rate `fs`: with
`BW = f0/q`, `r = 1 - π·BW/fs`, `θ = 2π·f0/fs`, the coefficients are
`b0 = b2 = (1+r)/2`, `b1 = -(1+r)·cos θ`, `a1 = -2r·cos θ`, `a2 = r²`;
state registers start at zero. -/
def notchSection (f0 q fs : ℝ) : Section :=
  let bw := f0 / q
  let r := 1 - Real.pi * bw / fs
  let th := 2 * Real.pi * f0 / fs
  ⟨(1 + r) / 2, -((1 + r) * Real.cos th), (1 + r) / 2,
   -(2 * r * Real.cos th), r ^ 2, 0, 0⟩

/-- Modelled from the spec: `notch_filter_init` — validate `f0 < fs/2` and
`q > 0`, then produce the single-section notch filter. -/
def notch_filter_init (f0 q fs : ℝ) : Except Err Filter :=
  if fs / 2 ≤ f0 ∨ q ≤ 0 then .error .invalidParameter
  else .ok ⟨[notchSection f0 q fs], .double⟩

/-! ## Butterworth designs -/

/-- Modelled from the spec: bilinear pre-warping of a target frequency,
`Ω = 2·fs·tan(π·f/fs)`. -/
def warp (fs f : ℝ) : ℝ := 2 * fs * Real.tan (Real.pi * f / fs)

/-- Angle of the `k`-th normalized Butterworth prototype pole (`k = 0..n-1`):
`θ = π·(2k+1)/(2n)`. -/
def butterAngle (n k : ℕ) : ℝ := Real.pi * (2 * k + 1) / (2 * n)

/-- Modelled from the spec: the `k`-th normalized analog Butterworth pole on
the left-half unit circle, `(-sin θ, cos θ)`. -/
def butterPole (n k : ℕ) : ℂ :=
  ⟨-Real.sin (butterAngle n k), Real.cos (butterAngle n k)⟩

/-- Modelled from the spec: the bilinear transform
`z = (2·fs + s) / (2·fs - s)` mapping analog poles and zeros to digital
ones. -/
def bilinear (fs : ℝ) (s : ℂ) : ℂ :=
  (((2 * fs : ℝ) : ℂ) + s) / (((2 * fs : ℝ) : ℂ) - s)

/-- Section realizing a digital pole `z` together with its complex conjugate:
denominator `1 + a1·Z⁻¹ + a2·Z⁻²` with `a1 = -2·Re z`, `a2 = |z|²`; the
numerator coefficients are supplied by the caller and the state registers
start at zero. -/
def pairSection (b0 b1 b2 : ℝ) (z : ℂ) : Section :=
  ⟨b0, b1, b2, -(2 * z.re), Complex.normSq z, 0, 0⟩

/-- Degenerate section for an unpaired (real) digital pole of an odd-order
design: `a1 = -Re z`, `a2 = 0`. -/
def realPoleSection (b0 b1 : ℝ) (z : ℂ) : Section :=
  ⟨b0, b1, 0, -z.re, 0, 0, 0⟩

/-- Digital low-pass pole for prototype index `k`: the prototype pole is
scaled by the pre-warped cutoff and mapped through the bilinear transform. -/
def lpPole (n k : ℕ) (fc fs : ℝ) : ℂ :=
  bilinear fs ((warp fs fc : ℂ) * butterPole n k)

/-- Modelled from the spec: the `k`-th low-pass section — digital zeros at
`z = -1`, denominator from the digital pole pair, numerator scaled for unity
gain at DC. -/
def lpSection (n : ℕ) (fc fs : ℝ) (k : ℕ) : Section :=
  let z := lpPole n k fc fs
  if n = 2 * k + 1 then
    realPoleSection ((1 - z.re) / 2) ((1 - z.re) / 2) z
  else
    pairSection ((1 - 2 * z.re + Complex.normSq z) / 4)
      ((1 - 2 * z.re + Complex.normSq z) / 2)
      ((1 - 2 * z.re + Complex.normSq z) / 4) z

/-- Modelled from the spec: `butter_lowpass_init` — validate the order and
cutoff, then build `ceil(order/2)` low-pass sections. -/
def butter_lowpass_init (order : ℤ) (fc fs : ℝ) : Except Err Filter :=
  if order ≤ 0 ∨ IIRDSP_MAX_SECTIONS < (order.toNat + 1) / 2 then .error .invalidOrder
  else if fs / 2 ≤ fc then .error .invalidFrequency
  else .ok ⟨(List.range ((order.toNat + 1) / 2)).map (lpSection order.toNat fc fs), .double⟩

/-- Digital high-pass pole for prototype index `k`: the analog prototype pole
is inverted into the pre-warped cutoff (`s ↦ Ω/s`) and mapped through the
bilinear transform. -/
def hpPole (n k : ℕ) (fc fs : ℝ) : ℂ :=
  bilinear fs ((warp fs fc : ℂ) / butterPole n k)

/-- Modelled from the spec: the `k`-th high-pass section — digital zeros at
`z = +1`, denominator from the digital pole pair, numerator scaled for unity
gain at Nyquist. -/
def hpSection (n : ℕ) (fc fs : ℝ) (k : ℕ) : Section :=
  let z := hpPole n k fc fs
  if n = 2 * k + 1 then
    realPoleSection ((1 + z.re) / 2) (-((1 + z.re) / 2)) z
  else
    pairSection ((1 + 2 * z.re + Complex.normSq z) / 4)
      (-((1 + 2 * z.re + Complex.normSq z) / 2))
      ((1 + 2 * z.re + Complex.normSq z) / 4) z

/-- Modelled from the spec: `butter_highpass_init` — validate the order and
cutoff, then build `ceil(order/2)` high-pass sections. -/
def butter_highpass_init (order : ℤ) (fc fs : ℝ) : Except Err Filter :=
  if order ≤ 0 ∨ IIRDSP_MAX_SECTIONS < (order.toNat + 1) / 2 then .error .invalidOrder
  else if fs / 2 ≤ fc then .error .invalidFrequency
  else .ok ⟨(List.range ((order.toNat + 1) / 2)).map (hpSection order.toNat fc fs), .double⟩

/-- Explicit complex square root (principal-like branch): real and imaginary
parts `√((|w|+Re w)/2)` and `±√((|w|-Re w)/2)`, the sign following the sign
of `Im w`. -/
def csqrt (w : ℂ) : ℂ :=
  ⟨Real.sqrt ((Complex.abs w + w.re) / 2),
   (if w.im < 0 then -1 else 1) * Real.sqrt ((Complex.abs w - w.re) / 2)⟩

/-- Band-pass pole substitution discriminant for prototype pole `p`,
bandwidth `bB = Ωhigh - Ωlow` and `c = Ωlow·Ωhigh`:
`(p·bB)² - 4c`. -/
def bpDisc (p : ℂ) (bB c : ℝ) : ℂ := (p * (bB : ℂ)) ^ 2 - 4 * (c : ℂ)

/-- First analog band-pass pole obtained from prototype pole `p`: a root of
`s² - p·bB·s + c`. -/
def bpPolePlus (p : ℂ) (bB c : ℝ) : ℂ := (p * (bB : ℂ) + csqrt (bpDisc p bB c)) / 2

/-- Second analog band-pass pole obtained from prototype pole `p`: the other
root of `s² - p·bB·s + c`. -/
def bpPoleMinus (p : ℂ) (bB c : ℝ) : ℂ := (p * (bB : ℂ) - csqrt (bpDisc p bB c)) / 2

/-- Band-center digital angular frequency used as the unity-gain reference of
the band-pass design (geometric mean of the band edges). -/
def bpCenter (lo hi fs : ℝ) : ℝ := 2 * Real.pi * Real.sqrt (lo * hi) / fs

/-- Magnitude-normalizing gain of one band-pass section at the reference
angle `wc`: the ratio of denominator to numerator magnitude of the
unnormalized section `(1, 0, -1) / (1, a1, a2)` evaluated on the unit
circle. -/
def bpGain (a1 a2 wc : ℝ) : ℝ :=
  Complex.abs (1 + (a1 : ℂ) * Complex.exp (-(wc : ℂ) * Complex.I)
      + (a2 : ℂ) * Complex.exp (-(2 * wc : ℂ) * Complex.I)) /
    Complex.abs (1 - Complex.exp (-(2 * wc : ℂ) * Complex.I))

/-- Modelled from the spec: the band-pass sections contributed by prototype
pole index `k`.  The band-pass substitution doubles the pole count, so a
paired prototype pole yields two sections (one per substitution root, each
completed by its complex conjugate); the unpaired real prototype pole of an
odd order yields a single section holding both substitution roots.  Digital
zeros sit at `z = ±1` and each numerator is scaled for unity gain at the
band center. -/
def bpSectionsAt (n : ℕ) (lo hi fs : ℝ) (k : ℕ) : List Section :=
  let bB := warp fs hi - warp fs lo
  let c := warp fs lo * warp fs hi
  let wc := bpCenter lo hi fs
  let p := butterPole n k
  let zp := bilinear fs (bpPolePlus p bB c)
  let zm := bilinear fs (bpPoleMinus p bB c)
  if n = 2 * k + 1 then
    [⟨bpGain (-((zp + zm).re)) ((zp * zm).re) wc, 0,
      -(bpGain (-((zp + zm).re)) ((zp * zm).re) wc),
      -((zp + zm).re), (zp * zm).re, 0, 0⟩]
  else
    [pairSection (bpGain (-(2 * zp.re)) (Complex.normSq zp) wc) 0
        (-(bpGain (-(2 * zp.re)) (Complex.normSq zp) wc)) zp,
     pairSection (bpGain (-(2 * zm.re)) (Complex.normSq zm) wc) 0
        (-(bpGain (-(2 * zm.re)) (Complex.normSq zm) wc)) zm]

/-- Modelled from the spec: `butter_bandpass_init` — validate the order and
band edges, then build the band-pass cascade (the substitution doubles the
pole count, so order `n` yields `n` sections). -/
def butter_bandpass_init (order : ℤ) (lo hi fs : ℝ) : Except Err Filter :=
  if order ≤ 0 ∨ IIRDSP_MAX_SECTIONS < order.toNat then .error .invalidOrder
  else if fs / 2 ≤ hi ∨ hi ≤ lo then .error .invalidFrequency
  else .ok ⟨(List.range ((order.toNat + 1) / 2)).flatMap (bpSectionsAt order.toNat lo hi fs),
            .double⟩

/-! ## Stability -/

/-- Every root of the monic quadratic `Z² + c1·Z + c2` (real coefficients,
complex roots) lies strictly inside the unit circle. -/
def polyStable (c1 c2 : ℝ) : Prop :=
  ∀ z : ℂ, z ^ 2 + (c1 : ℂ) * z + (c2 : ℂ) = 0 → Complex.abs z < 1

/-- BIBO stability invariant of one section: every root of
`Z² + a1·Z + a2` (the poles implied by `a1, a2`) lies strictly inside the
unit circle. -/
def sectionStable (s : Section) : Prop :=
  polyStable s.a1 s.a2

/-- A filter obtained from a successful run of one of the four design
operations. -/
def designedFilter (F : Filter) : Prop :=
  (∃ o fc fs, butter_lowpass_init o fc fs = .ok F) ∨
  (∃ o fc fs, butter_highpass_init o fc fs = .ok F) ∨
  (∃ o lo hi fs, butter_bandpass_init o lo hi fs = .ok F) ∨
  (∃ f0 q fs, notch_filter_init f0 q fs = .ok F)

/-- The impulse sequence `1, 0, 0, …` of length `n`, as fed by the test
harness (`x = (i == 0) ? 1.0 : 0.0`). -/
def impulse (n : ℕ) : List ℝ :=
  (List.range n).map fun i => if i = 0 then (1 : ℝ) else 0

/-! ## Basic runtime lemmas -/

theorem coeffEq_refl (f : Filter) : coeffEq f f := ⟨rfl, rfl⟩

theorem coeffEq_trans {f g h : Filter} (h1 : coeffEq f g) (h2 : coeffEq g h) :
    coeffEq f h := ⟨h1.1.trans h2.1, h1.2.trans h2.2⟩

theorem resetSection_congr {s t : Section} (h : s.coeffs = t.coeffs) :
    resetSection s = resetSection t := by
  simp only [Section.coeffs, Prod.mk.injEq] at h
  obtain ⟨h1, h2, h3, h4, h5⟩ := h
  simp [resetSection, h1, h2, h3, h4, h5]

theorem map_resetSection_congr :
    ∀ {l1 l2 : List Section}, l1.map Section.coeffs = l2.map Section.coeffs →
      l1.map resetSection = l2.map resetSection
  | [], [], _ => rfl
  | s :: l1, t :: l2, h => by
    simp only [List.map_cons, List.cons.injEq] at h ⊢
    exact ⟨resetSection_congr h.1, map_resetSection_congr h.2⟩

theorem reset_eq_of_coeffEq {f g : Filter} (h : coeffEq f g) :
    iirdsp_filter_reset f = iirdsp_filter_reset g := by
  cases f; cases g
  simp only [iirdsp_filter_reset, Filter.mk.injEq]
  exact ⟨map_resetSection_congr h.2, h.1⟩

theorem reset_coeffEq (f : Filter) : coeffEq (iirdsp_filter_reset f) f := by
  refine ⟨rfl, ?_⟩
  simp [iirdsp_filter_reset, List.map_map, Function.comp_def, Section.coeffs, resetSection]

theorem reset_reset (f : Filter) :
    iirdsp_filter_reset (iirdsp_filter_reset f) = iirdsp_filter_reset f := by
  simp [iirdsp_filter_reset, List.map_map, Function.comp_def, resetSection]

theorem coeffs_cascadeRun (ss : List Section) (x : ℝ) :
    (cascadeRun ss x).1.map Section.coeffs = ss.map Section.coeffs := by
  induction ss generalizing x with
  | nil => rfl
  | cons s ss ih => simp [cascadeRun, sectionStep, Section.coeffs, ih]

theorem coeffEq_process (f : Filter) (x : ℝ) :
    coeffEq (iirdsp_process_sample f x).1 f :=
  ⟨rfl, coeffs_cascadeRun f.sections x⟩

theorem coeffEq_runFilter (f : Filter) (xs : List ℝ) :
    coeffEq (runFilter f xs).1 f := by
  induction xs generalizing f with
  | nil => exact coeffEq_refl f
  | cons x xs ih =>
    exact coeffEq_trans (ih (iirdsp_process_sample f x).1) (coeffEq_process f x)

theorem runFilter_snd_length (f : Filter) (xs : List ℝ) :
    (runFilter f xs).2.length = xs.length := by
  induction xs generalizing f with
  | nil => rfl
  | cons x xs ih => simp [runFilter, ih]

theorem sections_length_eq_of_coeffEq {f g : Filter} (h : coeffEq f g) :
    f.sections.length = g.sections.length := by
  have := congrArg List.length h.2
  simpa using this

theorem padMargin_eq_of_coeffEq {f g : Filter} (h : coeffEq f g) :
    padMargin f = padMargin g := by
  simp [padMargin, sections_length_eq_of_coeffEq h]

theorem reset_runFilter_reset (f : Filter) (xs : List ℝ) :
    iirdsp_filter_reset (runFilter (iirdsp_filter_reset f) xs).1
      = iirdsp_filter_reset f := by
  have h1 : coeffEq (runFilter (iirdsp_filter_reset f) xs).1 f :=
    coeffEq_trans (coeffEq_runFilter _ xs) (reset_coeffEq f)
  calc iirdsp_filter_reset (runFilter (iirdsp_filter_reset f) xs).1
      = iirdsp_filter_reset f := reset_eq_of_coeffEq h1

/-! ## Claim C4 -/

/-- C4: for every filter and input sample, `iirdsp_process_sample` applies to
each section in order the transposed direct-form-II update
`y = b0·x + w1`, `w1' = b1·x − a1·y + w2`, `w2' = b2·x − a2·y`, feeding each
section's output `y` to the next section as its input, and returns the last
section's output (a filter with no sections passes the sample through). -/
theorem C4_process_is_tdf2_cascade (f : Filter) (x : ℝ) :
    (f.sections = [] → iirdsp_process_sample f x = (f, x)) ∧
    (∀ s ss, f.sections = s :: ss →
      iirdsp_process_sample f x =
        (⟨(⟨s.b0, s.b1, s.b2, s.a1, s.a2,
            s.b1 * x - s.a1 * (s.b0 * x + s.w1) + s.w2,
            s.b2 * x - s.a2 * (s.b0 * x + s.w1)⟩ : Section)
            :: (cascadeRun ss (s.b0 * x + s.w1)).1, f.prec⟩,
          (cascadeRun ss (s.b0 * x + s.w1)).2)) := by
  constructor
  · intro h
    cases f
    simp_all [iirdsp_process_sample, cascadeRun]
  · intro s ss h
    simp [iirdsp_process_sample, h, cascadeRun, sectionStep]

/-- Witness for C4: a concrete one-section filter with state `w1 = 5` maps
the sample `2` to the output `7 = b0·x + w1` with its state registers
updated. -/
theorem C4_witness :
    iirdsp_process_sample ⟨[⟨1, 0, 0, 0, 0, 5, 0⟩], Prec.double⟩ 2
      = (⟨[⟨1, 0, 0, 0, 0, 0, 0⟩], Prec.double⟩, 7) := by
  have h := (C4_process_is_tdf2_cascade ⟨[⟨1, 0, 0, 0, 0, 5, 0⟩], Prec.double⟩ 2).2
    ⟨1, 0, 0, 0, 0, 5, 0⟩ [] rfl
  rw [h]
  norm_num [cascadeRun]

/-! ## Claim C10 -/

/-- C10: `iirdsp_filter_reset` zeroes both state registers of every section,
and a reset followed by feeding the impulse sequence `1, 0, 0, …` through the
cascade reproduces the identical output sequence on a repeated trial (the
second trial resetting the filter left behind by the first). -/
theorem C10_reset_zeroes_and_impulse_reproducible :
    (∀ f : Filter, ∀ s ∈ (iirdsp_filter_reset f).sections, s.w1 = 0 ∧ s.w2 = 0) ∧
    (∀ (f : Filter) (n : ℕ),
      (runFilter
          (iirdsp_filter_reset ((runFilter (iirdsp_filter_reset f) (impulse n)).1))
          (impulse n)).2
        = (runFilter (iirdsp_filter_reset f) (impulse n)).2) := by
  constructor
  · intro f s hs
    simp only [iirdsp_filter_reset, List.mem_map] at hs
    obtain ⟨t, -, rfl⟩ := hs
    exact ⟨rfl, rfl⟩
  · intro f n
    rw [reset_runFilter_reset]

/-- Witness for C10: the zeroed-state property at a concrete section, via a
concrete one-section filter. -/
theorem C10_witness :
    (⟨1, 2, 3, 4, 5, 0, 0⟩ : Section).w1 = 0 ∧ (⟨1, 2, 3, 4, 5, 0, 0⟩ : Section).w2 = 0 :=
  C10_reset_zeroes_and_impulse_reproducible.1 ⟨[⟨1, 2, 3, 4, 5, 6, 7⟩], Prec.double⟩
    ⟨1, 2, 3, 4, 5, 0, 0⟩ (by simp [iirdsp_filter_reset, resetSection])

/-! ## Filtfilt helper lemmas -/

theorem notch_init_ok {f0 q fs : ℝ} (h1 : f0 < fs / 2) (h2 : 0 < q) :
    notch_filter_init f0 q fs = .ok ⟨[notchSection f0 q fs], .double⟩ := by
  unfold notch_filter_init
  rw [if_neg]
  simp only [not_or, not_le]
  exact ⟨h1, h2⟩

theorem filtfilt_err {f : Filter} {xs : List ℝ} (h : xs.length < padMargin f) :
    iirdsp_filtfilt f xs = .error .insufficientSamples := by
  unfold iirdsp_filtfilt
  rw [if_pos h]

theorem filtfilt_ok {f : Filter} {xs : List ℝ} (h : ¬ xs.length < padMargin f) :
    iirdsp_filtfilt f xs =
      .ok ((runFilter (iirdsp_filter_reset f)
              (runFilter (iirdsp_filter_reset f)
                (reflectPre (padMargin f) xs ++ xs ++
                  reflectPost (padMargin f) xs)).2.reverse).1,
           ((runFilter (iirdsp_filter_reset f)
              (runFilter (iirdsp_filter_reset f)
                (reflectPre (padMargin f) xs ++ xs ++
                  reflectPost (padMargin f) xs)).2.reverse).2.reverse.drop
              (padMargin f)).take xs.length) := by
  unfold iirdsp_filtfilt
  rw [if_neg h]

theorem padMargin_ge_three (f : Filter) : 3 ≤ padMargin f := by
  simp only [padMargin]
  omega

theorem filtfilt_len {f : Filter} {xs : List ℝ} (h : ¬ xs.length < padMargin f) :
    (iirdsp_filtfilt f xs).map (fun r => r.2.length) = .ok xs.length := by
  rw [filtfilt_ok h]
  simp only [Except.map, Except.ok.injEq]
  have h3 := padMargin_ge_three f
  simp only [List.length_take, List.length_drop, List.length_reverse,
    runFilter_snd_length, List.length_append, reflectPre, reflectPost,
    List.length_take, List.length_drop]
  omega

/-! ## Claim C9 -/

/-- C9: `iirdsp_process_sample` and `iirdsp_filter_reset` are total functions
of the model — their codomains contain no error value, so no error result or
error branch is reachable; moreover, on a filter produced by a successful
design operation they do not corrupt the filter: the precision tag and every
section coefficient are preserved. -/
theorem C9_process_reset_never_fail (F : Filter) (_hF : designedFilter F) :
    ((iirdsp_filter_reset F).prec = F.prec ∧
      (iirdsp_filter_reset F).sections.map Section.coeffs
        = F.sections.map Section.coeffs) ∧
    ∀ x : ℝ, (iirdsp_process_sample F x).1.prec = F.prec ∧
      (iirdsp_process_sample F x).1.sections.map Section.coeffs
        = F.sections.map Section.coeffs :=
  ⟨⟨(reset_coeffEq F).1, (reset_coeffEq F).2⟩,
   fun x => ⟨(coeffEq_process F x).1, (coeffEq_process F x).2⟩⟩

/-- Witness for C9: the reset part of the conclusion at the concrete filter
designed by `notch_filter_init 50 30 500`. -/
theorem C9_witness :
    (iirdsp_filter_reset ⟨[notchSection 50 30 500], Prec.double⟩).prec
        = (⟨[notchSection 50 30 500], Prec.double⟩ : Filter).prec ∧
      (iirdsp_filter_reset ⟨[notchSection 50 30 500], Prec.double⟩).sections.map
          Section.coeffs
        = (⟨[notchSection 50 30 500], Prec.double⟩ : Filter).sections.map
          Section.coeffs :=
  (C9_process_reset_never_fail ⟨[notchSection 50 30 500], Prec.double⟩
    (Or.inr (Or.inr (Or.inr
      ⟨50, 30, 500, notch_init_ok (by norm_num) (by norm_num)⟩)))).1

/-! ## Claim C7 -/

/-- C7: `iirdsp_filtfilt` fails with `InsufficientSamples` exactly when the
input buffer is shorter than the fixed reflect-padding margin, and succeeds
exactly otherwise (for every filter, in particular every validly designed
one). -/
theorem C7_filtfilt_insufficient_samples (f : Filter) (xs : List ℝ) :
    (iirdsp_filtfilt f xs = .error .insufficientSamples ↔
      xs.length < padMargin f) ∧
    ((∃ r, iirdsp_filtfilt f xs = .ok r) ↔ padMargin f ≤ xs.length) := by
  by_cases h : xs.length < padMargin f
  · rw [filtfilt_err h]
    simp [h, Nat.not_le.mpr h]
  · rw [filtfilt_ok h]
    simp [h, Nat.not_lt.mp h]

/-! ## Claim C6 -/

/-- C6: for an input buffer at least as long as the padding margin,
`iirdsp_filtfilt` performs exactly the specified steps — reset the filter
state, run the forward pass over the edge-extended buffer, reset again, run
the cascade over the time-reversed intermediate sequence, reverse the result
back to original time order (stripping the padding) — and the output buffer
has the same length as the input. -/
theorem C6_filtfilt_steps (f : Filter) (xs : List ℝ)
    (h : padMargin f ≤ xs.length) :
    iirdsp_filtfilt f xs =
      .ok ((runFilter (iirdsp_filter_reset f)
              (runFilter (iirdsp_filter_reset f)
                (reflectPre (padMargin f) xs ++ xs ++
                  reflectPost (padMargin f) xs)).2.reverse).1,
           ((runFilter (iirdsp_filter_reset f)
              (runFilter (iirdsp_filter_reset f)
                (reflectPre (padMargin f) xs ++ xs ++
                  reflectPost (padMargin f) xs)).2.reverse).2.reverse.drop
              (padMargin f)).take xs.length) ∧
    (iirdsp_filtfilt f xs).map (fun r => r.2.length) = .ok xs.length :=
  ⟨filtfilt_ok (Nat.not_lt.mpr h), filtfilt_len (Nat.not_lt.mpr h)⟩

/-- Witness for C6: the length conclusion at a concrete one-section filter
(padding margin `9`) and a nine-sample zero buffer. -/
theorem C6_witness :
    (iirdsp_filtfilt ⟨[⟨1, 0, 0, 0, 0, 0, 0⟩], Prec.double⟩
        (List.replicate 9 (0 : ℝ))).map (fun r => r.2.length)
      = .ok (List.replicate 9 (0 : ℝ)).length :=
  (C6_filtfilt_steps ⟨[⟨1, 0, 0, 0, 0, 0, 0⟩], Prec.double⟩
    (List.replicate 9 (0 : ℝ))
    (by simp [padMargin])).2

/-! ## Claim C8 -/

/-- C8: `iirdsp_filtfilt` is deterministic — its success/failure and its
output buffer depend only on the input buffer and the filter's coefficients
(not on the incoming state registers, which it resets internally), and it
leaves the coefficients unchanged; hence two calls with the same input on a
freshly reset filter — or on the filter state left behind by the first
call — produce bit-identical output buffers. -/
theorem C8_filtfilt_deterministic (f g : Filter) (xs : List ℝ)
    (h : coeffEq f g) :
    (iirdsp_filtfilt f xs).map Prod.snd = (iirdsp_filtfilt g xs).map Prod.snd ∧
    (iirdsp_filtfilt f xs).map (fun r => (r.1.prec, r.1.sections.map Section.coeffs))
      = (iirdsp_filtfilt f xs).map
          (fun _ => (f.prec, f.sections.map Section.coeffs)) := by
  have hres : iirdsp_filter_reset f = iirdsp_filter_reset g := reset_eq_of_coeffEq h
  have hP : padMargin f = padMargin g := padMargin_eq_of_coeffEq h
  constructor
  · by_cases hl : xs.length < padMargin f
    · rw [filtfilt_err hl, filtfilt_err (hP ▸ hl)]
    · rw [filtfilt_ok hl, filtfilt_ok (hP ▸ hl)]
      rw [hres, hP]
  · by_cases hl : xs.length < padMargin f
    · rw [filtfilt_err hl]
      rfl
    · rw [filtfilt_ok hl]
      simp only [Except.map, Except.ok.injEq]
      have hc : coeffEq (runFilter (iirdsp_filter_reset f)
          (runFilter (iirdsp_filter_reset f)
            (reflectPre (padMargin f) xs ++ xs ++
              reflectPost (padMargin f) xs)).2.reverse).1 f :=
        coeffEq_trans (coeffEq_runFilter _ _) (reset_coeffEq f)
      exact Prod.ext hc.1 hc.2

/-- Witness for C8: the determinism conclusion at a concrete one-section
filter compared with itself on a nine-sample zero buffer. -/
theorem C8_witness :
    (iirdsp_filtfilt ⟨[⟨1, 0, 0, 0, 0, 0, 0⟩], Prec.double⟩
        (List.replicate 9 (0 : ℝ))).map Prod.snd
      = (iirdsp_filtfilt ⟨[⟨1, 0, 0, 0, 0, 0, 0⟩], Prec.double⟩
          (List.replicate 9 (0 : ℝ))).map Prod.snd :=
  (C8_filtfilt_deterministic ⟨[⟨1, 0, 0, 0, 0, 0, 0⟩], Prec.double⟩
    ⟨[⟨1, 0, 0, 0, 0, 0, 0⟩], Prec.double⟩ (List.replicate 9 (0 : ℝ))
    ⟨rfl, rfl⟩).1

/-! ## Design success helper lemmas -/

theorem lp_init_ok {o : ℤ} {fc fs : ℝ}
    (h1 : ¬ (o ≤ 0 ∨ IIRDSP_MAX_SECTIONS < (o.toNat + 1) / 2))
    (h2 : ¬ fs / 2 ≤ fc) :
    butter_lowpass_init o fc fs =
      .ok ⟨(List.range ((o.toNat + 1) / 2)).map (lpSection o.toNat fc fs), .double⟩ := by
  unfold butter_lowpass_init
  rw [if_neg h1, if_neg h2]

theorem hp_init_ok {o : ℤ} {fc fs : ℝ}
    (h1 : ¬ (o ≤ 0 ∨ IIRDSP_MAX_SECTIONS < (o.toNat + 1) / 2))
    (h2 : ¬ fs / 2 ≤ fc) :
    butter_highpass_init o fc fs =
      .ok ⟨(List.range ((o.toNat + 1) / 2)).map (hpSection o.toNat fc fs), .double⟩ := by
  unfold butter_highpass_init
  rw [if_neg h1, if_neg h2]

theorem bp_init_ok {o : ℤ} {lo hi fs : ℝ}
    (h1 : ¬ (o ≤ 0 ∨ IIRDSP_MAX_SECTIONS < o.toNat))
    (h2 : ¬ (fs / 2 ≤ hi ∨ hi ≤ lo)) :
    butter_bandpass_init o lo hi fs =
      .ok ⟨(List.range ((o.toNat + 1) / 2)).flatMap (bpSectionsAt o.toNat lo hi fs),
           .double⟩ := by
  unfold butter_bandpass_init
  rw [if_neg h1, if_neg h2]

theorem bpSectionsAt_length (n : ℕ) (lo hi fs : ℝ) (k : ℕ) :
    (bpSectionsAt n lo hi fs k).length = if n = 2 * k + 1 then 1 else 2 := by
  unfold bpSectionsAt
  split <;> rfl

theorem length_flatMap_sections (n : ℕ) (lo hi fs : ℝ) :
    ∀ c : ℕ, ((List.range c).flatMap (bpSectionsAt n lo hi fs)).length
      = ((List.range c).map fun k => if n = 2 * k + 1 then 1 else 2).sum := by
  intro c
  induction (List.range c) with
  | nil => rfl
  | cons a l ih => simp [List.flatMap_cons, ih, bpSectionsAt_length]

theorem bpSections_length (n : ℕ) (lo hi fs : ℝ) :
    ((List.range ((n + 1) / 2)).flatMap (bpSectionsAt n lo hi fs)).length = n := by
  rw [length_flatMap_sections]
  rcases Nat.even_or_odd n with ⟨m, hm⟩ | ⟨m, hm⟩
  · have hc : (n + 1) / 2 = m := by omega
    rw [hc]
    have hrep : (List.range m).map (fun k => if n = 2 * k + 1 then (1 : ℕ) else 2)
        = List.replicate m 2 := by
      rw [List.eq_replicate_iff]
      constructor
      · simp
      · intro b hb
        simp only [List.mem_map, List.mem_range] at hb
        obtain ⟨k, -, rfl⟩ := hb
        rw [if_neg (by omega)]
    rw [hrep]
    simp [List.sum_replicate, smul_eq_mul]
    omega
  · have hc : (n + 1) / 2 = m + 1 := by omega
    rw [hc, List.range_succ]
    rw [List.map_append, List.sum_append]
    have hrep : (List.range m).map (fun k => if n = 2 * k + 1 then (1 : ℕ) else 2)
        = List.replicate m 2 := by
      rw [List.eq_replicate_iff]
      constructor
      · simp
      · intro b hb
        simp only [List.mem_map, List.mem_range] at hb
        obtain ⟨k, hk, rfl⟩ := hb
        rw [if_neg (by omega)]
    rw [hrep]
    simp only [List.map_cons, List.map_nil, List.sum_cons, List.sum_nil]
    rw [if_pos (by omega)]
    simp [List.sum_replicate, smul_eq_mul]
    omega

/-! ## Claim C3 -/

/-- C3: for valid notch parameters (`0 < f0 < fs/2`, `q > 0`),
`notch_filter_init` succeeds and produces a single-section filter whose
coefficients are exactly the closed form: with `BW = f0/q`,
`r = 1 − π·BW/fs`, `θ = 2π·f0/fs`, the section is
`b0 = b2 = (1+r)/2`, `b1 = −(1+r)·cos θ`, `a1 = −2r·cos θ`, `a2 = r²`. -/
theorem C3_notch_closed_form (f0 q fs : ℝ) (_h1 : 0 < f0) (h2 : f0 < fs / 2)
    (h3 : 0 < q) :
    notch_filter_init f0 q fs =
      .ok ⟨[⟨(1 + (1 - Real.pi * (f0 / q) / fs)) / 2,
             -((1 + (1 - Real.pi * (f0 / q) / fs)) * Real.cos (2 * Real.pi * f0 / fs)),
             (1 + (1 - Real.pi * (f0 / q) / fs)) / 2,
             -(2 * (1 - Real.pi * (f0 / q) / fs) * Real.cos (2 * Real.pi * f0 / fs)),
             (1 - Real.pi * (f0 / q) / fs) ^ 2, 0, 0⟩], .double⟩ := by
  rw [notch_init_ok h2 h3]
  rfl

/-- Witness for C3: the closed form at the harness parameters
(`f0 = 50`, `q = 30`, `fs = 500`). -/
theorem C3_witness :
    notch_filter_init 50 30 500 =
      .ok ⟨[⟨(1 + (1 - Real.pi * ((50 : ℝ) / 30) / 500)) / 2,
             -((1 + (1 - Real.pi * ((50 : ℝ) / 30) / 500)) *
               Real.cos (2 * Real.pi * 50 / 500)),
             (1 + (1 - Real.pi * ((50 : ℝ) / 30) / 500)) / 2,
             -(2 * (1 - Real.pi * ((50 : ℝ) / 30) / 500) *
               Real.cos (2 * Real.pi * 50 / 500)),
             (1 - Real.pi * ((50 : ℝ) / 30) / 500) ^ 2, 0, 0⟩], .double⟩ :=
  C3_notch_closed_form 50 30 500 (by norm_num) (by norm_num) (by norm_num)

/-! ## Claim C1 -/

/-- C1 counterexample: a successful band-pass design of order 4 yields 4
sections — the substitution `s ↦ (s² + Ω_low·Ω_high)/(s·(Ω_high−Ω_low))`
doubles the pole count — not `ceil(4/2) = 2` as the claim requires of every
Butterworth design operation. -/
theorem C1_counterexample :
    (butter_bandpass_init 4 (1 / 2) 40 500).map (fun F => F.sections.length)
        = .ok 4 ∧
      (4 : ℕ) ≠ ((4 : ℤ).toNat + 1) / 2 := by
  constructor
  · rw [@bp_init_ok 4 (1 / 2) 40 500 (by decide) (by norm_num)]
    simp only [Except.map]
    rw [show ((4 : ℤ).toNat + 1) / 2 = 2 from rfl]
    rw [show (4 : ℤ).toNat = 4 from rfl]
    rw [bpSections_length 4 (1 / 2) 40 500]
  · decide

/-- C1 amended: for every successful low-pass or high-pass design the section
count equals `ceil(N/2)` (in particular the order-4 low-pass at 10 Hz,
Fs = 500 Hz yields exactly 2 sections), while a successful band-pass design
of order `N` yields `N` sections because the band-pass substitution doubles
the pole count. -/
theorem C1_amended_section_counts :
    (∀ (o : ℤ) (fc fs : ℝ) (F : Filter), butter_lowpass_init o fc fs = .ok F →
      F.sections.length = (o.toNat + 1) / 2) ∧
    (∀ (o : ℤ) (fc fs : ℝ) (F : Filter), butter_highpass_init o fc fs = .ok F →
      F.sections.length = (o.toNat + 1) / 2) ∧
    (∀ (o : ℤ) (lo hi fs : ℝ) (F : Filter), butter_bandpass_init o lo hi fs = .ok F →
      F.sections.length = o.toNat) ∧
    (∀ F : Filter, butter_lowpass_init 4 10 500 = .ok F → F.sections.length = 2) := by
  have hlp : ∀ (o : ℤ) (fc fs : ℝ) (F : Filter), butter_lowpass_init o fc fs = .ok F →
      F.sections.length = (o.toNat + 1) / 2 := by
    intro o fc fs F h
    unfold butter_lowpass_init at h
    split_ifs at h
    simp only [Except.ok.injEq] at h
    subst h
    simp
  refine ⟨hlp, ?_, ?_, ?_⟩
  · intro o fc fs F h
    unfold butter_highpass_init at h
    split_ifs at h
    simp only [Except.ok.injEq] at h
    subst h
    simp
  · intro o lo hi fs F h
    unfold butter_bandpass_init at h
    split_ifs at h
    simp only [Except.ok.injEq] at h
    subst h
    simp only
    exact bpSections_length o.toNat lo hi fs
  · intro F h
    have := hlp 4 10 500 F h
    simpa using this

/-- Witness for C1: the concrete order-4 low-pass design at 10 Hz,
Fs = 500 Hz has exactly 2 sections. -/
theorem C1_witness :
    (⟨(List.range (((4 : ℤ).toNat + 1) / 2)).map (lpSection (4 : ℤ).toNat 10 500),
        Prec.double⟩ : Filter).sections.length = 2 :=
  C1_amended_section_counts.2.2.2 _ (lp_init_ok (by decide) (by norm_num))

/-! ## Claim C5 -/

/-- C5 counterexample: at order `0` with cutoff at the sampling frequency,
both the order condition and the frequency condition (`fc ≥ fs/2`) hold, yet
the design fails with `InvalidOrder` and not with `InvalidFrequency` — so
"fails with InvalidFrequency if and only if a cutoff is at or above Nyquist"
is false as stated: the order check takes precedence. -/
theorem C5_counterexample :
    butter_lowpass_init 0 500 500 = .error .invalidOrder ∧
      (500 : ℝ) / 2 ≤ 500 ∧
      butter_lowpass_init 0 500 500 ≠ .error .invalidFrequency := by
  have h : butter_lowpass_init 0 500 500 = .error .invalidOrder := by
    unfold butter_lowpass_init
    rw [if_pos (by decide)]
  refine ⟨h, by norm_num, ?_⟩
  rw [h]
  simp

/-- C5 amended: each design operation validates its order first and its
frequencies second — `InvalidOrder` exactly when `N ≤ 0` or the required
section count exceeds the fixed capacity; `InvalidFrequency` exactly when the
order is valid and a cutoff is at or above Nyquist (or, for band-pass,
`low ≥ high`); `design_notch` fails with `InvalidParameter` exactly when
`f0 ≥ fs/2` or `q ≤ 0`; success exactly when no condition fails.  Each
failure returns only the error code, so no caller-visible state is partially
mutated (the model's error branch carries no filter). -/
theorem C5_amended_error_conditions :
    (∀ (o : ℤ) (fc fs : ℝ),
      (butter_lowpass_init o fc fs = .error .invalidOrder ↔
        o ≤ 0 ∨ IIRDSP_MAX_SECTIONS < (o.toNat + 1) / 2) ∧
      (butter_lowpass_init o fc fs = .error .invalidFrequency ↔
        ¬ (o ≤ 0 ∨ IIRDSP_MAX_SECTIONS < (o.toNat + 1) / 2) ∧ fs / 2 ≤ fc) ∧
      ((∃ F, butter_lowpass_init o fc fs = .ok F) ↔
        ¬ (o ≤ 0 ∨ IIRDSP_MAX_SECTIONS < (o.toNat + 1) / 2) ∧ ¬ fs / 2 ≤ fc)) ∧
    (∀ (o : ℤ) (fc fs : ℝ),
      (butter_highpass_init o fc fs = .error .invalidOrder ↔
        o ≤ 0 ∨ IIRDSP_MAX_SECTIONS < (o.toNat + 1) / 2) ∧
      (butter_highpass_init o fc fs = .error .invalidFrequency ↔
        ¬ (o ≤ 0 ∨ IIRDSP_MAX_SECTIONS < (o.toNat + 1) / 2) ∧ fs / 2 ≤ fc) ∧
      ((∃ F, butter_highpass_init o fc fs = .ok F) ↔
        ¬ (o ≤ 0 ∨ IIRDSP_MAX_SECTIONS < (o.toNat + 1) / 2) ∧ ¬ fs / 2 ≤ fc)) ∧
    (∀ (o : ℤ) (lo hi fs : ℝ),
      (butter_bandpass_init o lo hi fs = .error .invalidOrder ↔
        o ≤ 0 ∨ IIRDSP_MAX_SECTIONS < o.toNat) ∧
      (butter_bandpass_init o lo hi fs = .error .invalidFrequency ↔
        ¬ (o ≤ 0 ∨ IIRDSP_MAX_SECTIONS < o.toNat) ∧ (fs / 2 ≤ hi ∨ hi ≤ lo)) ∧
      ((∃ F, butter_bandpass_init o lo hi fs = .ok F) ↔
        ¬ (o ≤ 0 ∨ IIRDSP_MAX_SECTIONS < o.toNat) ∧ ¬ (fs / 2 ≤ hi ∨ hi ≤ lo))) ∧
    (∀ f0 q fs : ℝ,
      (notch_filter_init f0 q fs = .error .invalidParameter ↔
        fs / 2 ≤ f0 ∨ q ≤ 0) ∧
      ((∃ F, notch_filter_init f0 q fs = .ok F) ↔ ¬ (fs / 2 ≤ f0 ∨ q ≤ 0))) := by
  refine ⟨?_, ?_, ?_, ?_⟩
  · intro o fc fs
    unfold butter_lowpass_init
    by_cases h1 : o ≤ 0 ∨ IIRDSP_MAX_SECTIONS < (o.toNat + 1) / 2
    · rw [if_pos h1]
      exact ⟨iff_of_true rfl h1, iff_of_false (by simp) fun hc => hc.1 h1,
        iff_of_false (by simp) fun hc => hc.1 h1⟩
    · rw [if_neg h1]
      by_cases h2 : fs / 2 ≤ fc
      · rw [if_pos h2]
        exact ⟨iff_of_false (by simp) h1, iff_of_true rfl ⟨h1, h2⟩,
          iff_of_false (by simp) fun hc => hc.2 h2⟩
      · rw [if_neg h2]
        exact ⟨iff_of_false (by simp) h1, iff_of_false (by simp) fun hc => h2 hc.2,
          iff_of_true ⟨_, rfl⟩ ⟨h1, h2⟩⟩
  · intro o fc fs
    unfold butter_highpass_init
    by_cases h1 : o ≤ 0 ∨ IIRDSP_MAX_SECTIONS < (o.toNat + 1) / 2
    · rw [if_pos h1]
      exact ⟨iff_of_true rfl h1, iff_of_false (by simp) fun hc => hc.1 h1,
        iff_of_false (by simp) fun hc => hc.1 h1⟩
    · rw [if_neg h1]
      by_cases h2 : fs / 2 ≤ fc
      · rw [if_pos h2]
        exact ⟨iff_of_false (by simp) h1, iff_of_true rfl ⟨h1, h2⟩,
          iff_of_false (by simp) fun hc => hc.2 h2⟩
      · rw [if_neg h2]
        exact ⟨iff_of_false (by simp) h1, iff_of_false (by simp) fun hc => h2 hc.2,
          iff_of_true ⟨_, rfl⟩ ⟨h1, h2⟩⟩
  · intro o lo hi fs
    unfold butter_bandpass_init
    by_cases h1 : o ≤ 0 ∨ IIRDSP_MAX_SECTIONS < o.toNat
    · rw [if_pos h1]
      exact ⟨iff_of_true rfl h1, iff_of_false (by simp) fun hc => hc.1 h1,
        iff_of_false (by simp) fun hc => hc.1 h1⟩
    · rw [if_neg h1]
      by_cases h2 : fs / 2 ≤ hi ∨ hi ≤ lo
      · rw [if_pos h2]
        exact ⟨iff_of_false (by simp) h1, iff_of_true rfl ⟨h1, h2⟩,
          iff_of_false (by simp) fun hc => hc.2 h2⟩
      · rw [if_neg h2]
        exact ⟨iff_of_false (by simp) h1, iff_of_false (by simp) fun hc => h2 hc.2,
          iff_of_true ⟨_, rfl⟩ ⟨h1, h2⟩⟩
  · intro f0 q fs
    unfold notch_filter_init
    by_cases h1 : fs / 2 ≤ f0 ∨ q ≤ 0
    · rw [if_pos h1]
      exact ⟨iff_of_true rfl h1, iff_of_false (by simp) fun hc => hc h1⟩
    · rw [if_neg h1]
      exact ⟨iff_of_false (by simp) h1, iff_of_true ⟨_, rfl⟩ h1⟩

/-! ## Complex square root lemmas -/

theorem csqrt_sq (w : ℂ) : csqrt w ^ 2 = w := by
  have habs := Complex.abs_re_le_abs w
  have h1 : 0 ≤ (Complex.abs w + w.re) / 2 := by
    rcases abs_le.mp habs with ⟨hl, -⟩
    linarith
  have h2 : 0 ≤ (Complex.abs w - w.re) / 2 := by
    rcases abs_le.mp habs with ⟨-, hr⟩
    linarith
  have hx : Real.sqrt ((Complex.abs w + w.re) / 2) * Real.sqrt ((Complex.abs w + w.re) / 2)
      = (Complex.abs w + w.re) / 2 := Real.mul_self_sqrt h1
  have hy : Real.sqrt ((Complex.abs w - w.re) / 2) * Real.sqrt ((Complex.abs w - w.re) / 2)
      = (Complex.abs w - w.re) / 2 := Real.mul_self_sqrt h2
  have hxy : Real.sqrt ((Complex.abs w + w.re) / 2) * Real.sqrt ((Complex.abs w - w.re) / 2)
      = |w.im| / 2 := by
    rw [← Real.sqrt_mul h1]
    have he : (Complex.abs w + w.re) / 2 * ((Complex.abs w - w.re) / 2) = (w.im / 2) ^ 2 := by
      have hsq : Complex.abs w ^ 2 = w.re ^ 2 + w.im ^ 2 := by
        rw [Complex.sq_abs, Complex.normSq_apply]
        ring
      nlinarith [hsq]
    rw [he, Real.sqrt_sq_eq_abs, abs_div]
    norm_num
  apply Complex.ext
  · rw [sq, Complex.mul_re]
    simp only [csqrt]
    rcases lt_or_le w.im 0 with him | him
    · rw [if_pos him]
      nlinarith [hx, hy]
    · rw [if_neg (not_lt.mpr him)]
      nlinarith [hx, hy]
  · rw [sq, Complex.mul_im]
    simp only [csqrt]
    rcases lt_or_le w.im 0 with him | him
    · rw [if_pos him]
      rw [abs_of_neg him] at hxy
      nlinarith [hxy]
    · rw [if_neg (not_lt.mpr him)]
      rw [abs_of_nonneg him] at hxy
      nlinarith [hxy]

theorem conj_csqrt_real {w : ℂ} (h : w.im = 0) :
    (starRingEnd ℂ) (csqrt w) = csqrt w ∨ (starRingEnd ℂ) (csqrt w) = -csqrt w := by
  have habs : Complex.abs w = |w.re| := by
    have hw : w = (w.re : ℂ) := Complex.ext rfl (by simp [h])
    conv_lhs => rw [hw]
    exact Complex.abs_ofReal _
  rcases le_or_lt 0 w.re with hre | hre
  · left
    apply Complex.ext
    · simp [Complex.conj_re]
    · simp only [Complex.conj_im, csqrt, h]
      rw [habs, abs_of_nonneg hre]
      simp
  · right
    apply Complex.ext
    · simp only [Complex.conj_re, Complex.neg_re, csqrt]
      rw [habs, abs_of_neg hre]
      simp
    · simp only [Complex.conj_im, Complex.neg_im, csqrt, h]

/-! ## Bilinear transform lemmas -/

theorem bilinear_abs_lt_one {fs : ℝ} (hfs : 0 < fs) {s : ℂ} (hs : s.re < 0) :
    Complex.abs (bilinear fs s) < 1 := by
  have hden0 : (((2 * fs : ℝ) : ℂ) - s) ≠ 0 := by
    intro h0
    have := congrArg Complex.re h0
    simp [Complex.sub_re, Complex.ofReal_re] at this
    linarith
  have hden : (0 : ℝ) < Complex.abs (((2 * fs : ℝ) : ℂ) - s) := Complex.abs.pos hden0
  unfold bilinear
  rw [map_div₀, div_lt_one hden]
  apply lt_of_pow_lt_pow_left₀ 2 (Complex.abs.nonneg _)
  rw [Complex.sq_abs, Complex.sq_abs, Complex.normSq_apply, Complex.normSq_apply]
  simp only [Complex.add_re, Complex.sub_re, Complex.add_im, Complex.sub_im,
    Complex.ofReal_re, Complex.ofReal_im]
  nlinarith [hs, hfs]

theorem conj_bilinear (fs : ℝ) (s : ℂ) :
    (starRingEnd ℂ) (bilinear fs s) = bilinear fs ((starRingEnd ℂ) s) := by
  unfold bilinear
  rw [map_div₀, map_add, map_sub, Complex.conj_ofReal]

/-! ## Stability of quadratic sections -/

theorem polyStable_two_roots {zp zm : ℂ} (hsum : (zp + zm).im = 0)
    (hprod : (zp * zm).im = 0) (h1 : Complex.abs zp < 1) (h2 : Complex.abs zm < 1) :
    polyStable (-((zp + zm).re)) ((zp * zm).re) := by
  intro w hw
  have hs : (((zp + zm).re : ℝ) : ℂ) = zp + zm := Complex.ext (by simp) (by simp [hsum])
  have hp : (((zp * zm).re : ℝ) : ℂ) = zp * zm := Complex.ext (by simp) (by simp [hprod])
  have hfac : (w - zp) * (w - zm) = 0 := by
    push_cast at hw
    rw [hs, hp] at hw
    linear_combination hw
  rcases mul_eq_zero.mp hfac with h | h
  · rw [sub_eq_zero.mp h]
    exact h1
  · rw [sub_eq_zero.mp h]
    exact h2

theorem polyStable_pair {z : ℂ} (hz : Complex.abs z < 1) :
    polyStable (-(2 * z.re)) (Complex.normSq z) := by
  have h := @polyStable_two_roots z ((starRingEnd ℂ) z)
    (by simp [Complex.add_conj]) (by simp [Complex.mul_conj])
    hz (by rwa [Complex.abs_conj])
  have e1 : (z + (starRingEnd ℂ) z).re = 2 * z.re := by
    simp only [Complex.add_re, Complex.conj_re]
    ring
  have e2 : (z * (starRingEnd ℂ) z).re = Complex.normSq z := by
    rw [Complex.mul_conj]
    simp
  rwa [e1, e2] at h

theorem polyStable_realpole {z : ℂ} (hz : Complex.abs z < 1) :
    polyStable (-z.re) 0 := by
  intro w hw
  have hfac : w * (w - (z.re : ℂ)) = 0 := by
    push_cast at hw
    linear_combination hw
  rcases mul_eq_zero.mp hfac with h | h
  · rw [h]
    simp only [map_zero]
    exact zero_lt_one
  · rw [sub_eq_zero.mp h, Complex.abs_ofReal]
    exact lt_of_le_of_lt (Complex.abs_re_le_abs z) hz

/-! ## Band-pass substitution lemmas -/

theorem bpPolePlus_quad (p : ℂ) (bB c : ℝ) :
    bpPolePlus p bB c ^ 2 - p * (bB : ℂ) * bpPolePlus p bB c + (c : ℂ) = 0 := by
  have h := csqrt_sq (bpDisc p bB c)
  unfold bpDisc at h
  unfold bpPolePlus bpDisc
  linear_combination (1 / 4 : ℂ) * h

theorem bpPoleMinus_quad (p : ℂ) (bB c : ℝ) :
    bpPoleMinus p bB c ^ 2 - p * (bB : ℂ) * bpPoleMinus p bB c + (c : ℂ) = 0 := by
  have h := csqrt_sq (bpDisc p bB c)
  unfold bpDisc at h
  unfold bpPoleMinus bpDisc
  linear_combination (1 / 4 : ℂ) * h

theorem bp_root_re_neg {p : ℂ} {bB c : ℝ} (hp : p.re < 0) (hB : 0 < bB) (hc : 0 < c)
    {s : ℂ} (h : s ^ 2 - p * (bB : ℂ) * s + (c : ℂ) = 0) : s.re < 0 := by
  have hs0 : s ≠ 0 := by
    intro h0
    rw [h0] at h
    simp at h
    linarith
  have hn : 0 < Complex.normSq s := Complex.normSq_pos.mpr hs0
  have h2 : (s ^ 2 + (c : ℂ)) * (starRingEnd ℂ) s = p * (bB : ℂ) * (s * (starRingEnd ℂ) s) := by
    linear_combination ((starRingEnd ℂ) s) * h
  have h3 : (s ^ 2 + (c : ℂ)) * (starRingEnd ℂ) s
      = s * ((Complex.normSq s : ℝ) : ℂ) + (c : ℂ) * (starRingEnd ℂ) s := by
    have hm := Complex.mul_conj s
    linear_combination s * hm
  rw [h3, Complex.mul_conj] at h2
  have hre := congrArg Complex.re h2
  simp only [Complex.add_re, Complex.mul_re, Complex.ofReal_re, Complex.ofReal_im,
    Complex.conj_re, Complex.conj_im, mul_zero, zero_mul, sub_zero, mul_neg] at hre
  by_contra hge
  push_neg at hge
  have t1 : 0 ≤ s.re * Complex.normSq s := mul_nonneg hge hn.le
  have t2 : 0 ≤ c * s.re := mul_nonneg hc.le hge
  have t3 : p.re * bB * Complex.normSq s < 0 := by
    apply mul_neg_of_neg_of_pos _ hn
    exact mul_neg_of_neg_of_pos hp hB
  nlinarith [hre]

theorem bpDisc_im_zero {p : ℂ} (h : p.im = 0) (bB c : ℝ) : (bpDisc p bB c).im = 0 := by
  have hp : p = (p.re : ℂ) := Complex.ext rfl (by simp [h])
  unfold bpDisc
  rw [hp]
  rw [show ((p.re : ℂ) * (bB : ℂ)) ^ 2 - 4 * (c : ℂ) = (((p.re * bB) ^ 2 - 4 * c : ℝ) : ℂ) by
    push_cast; ring]
  exact Complex.ofReal_im _

theorem conj_bpPoles {p : ℂ} (h : p.im = 0) (bB c : ℝ) :
    ((starRingEnd ℂ) (bpPolePlus p bB c) = bpPolePlus p bB c ∧
     (starRingEnd ℂ) (bpPoleMinus p bB c) = bpPoleMinus p bB c) ∨
    ((starRingEnd ℂ) (bpPolePlus p bB c) = bpPoleMinus p bB c ∧
     (starRingEnd ℂ) (bpPoleMinus p bB c) = bpPolePlus p bB c) := by
  have hpc : (starRingEnd ℂ) p = p := Complex.conj_eq_iff_im.mpr h
  rcases conj_csqrt_real (bpDisc_im_zero h bB c) with hcs | hcs
  · left
    constructor
    · unfold bpPolePlus
      rw [map_div₀, map_add, map_mul, hpc, Complex.conj_ofReal, hcs, map_ofNat]
    · unfold bpPoleMinus
      rw [map_div₀, map_sub, map_mul, hpc, Complex.conj_ofReal, hcs, map_ofNat]
  · right
    constructor
    · unfold bpPolePlus bpPoleMinus
      rw [map_div₀, map_add, map_mul, hpc, Complex.conj_ofReal, hcs, map_ofNat]
      ring
    · unfold bpPolePlus bpPoleMinus
      rw [map_div₀, map_sub, map_mul, hpc, Complex.conj_ofReal, hcs, map_ofNat]
      ring

/-! ## Frequency warp and prototype pole lemmas -/

theorem warp_pos {fs f : ℝ} (h0 : 0 < f) (h1 : f < fs / 2) : 0 < warp fs f := by
  have hfs : 0 < fs := by linarith
  have hpi := Real.pi_pos
  have hx0 : 0 < Real.pi * f / fs := by positivity
  have hx1 : Real.pi * f / fs < Real.pi / 2 := by
    rw [div_lt_div_iff₀ hfs (by norm_num : (0:ℝ) < 2)]
    nlinarith
  have ht := Real.tan_pos_of_pos_of_lt_pi_div_two hx0 hx1
  unfold warp
  have h2fs : (0:ℝ) < 2 * fs := by linarith
  exact mul_pos h2fs ht

theorem warp_mono {fs lo hi : ℝ} (h0 : 0 < lo) (h1 : lo < hi) (h2 : hi < fs / 2) :
    warp fs lo < warp fs hi := by
  have hfs : 0 < fs := by linarith
  have hpi := Real.pi_pos
  have ha : 0 ≤ Real.pi * lo / fs := by positivity
  have hb : Real.pi * hi / fs < Real.pi / 2 := by
    rw [div_lt_div_iff₀ hfs (by norm_num : (0:ℝ) < 2)]
    nlinarith
  have hab : Real.pi * lo / fs < Real.pi * hi / fs := by
    rw [div_lt_div_iff_of_pos_right hfs]
    nlinarith
  have := Real.tan_lt_tan_of_nonneg_of_lt_pi_div_two ha hb hab
  unfold warp
  have h2fs : (0:ℝ) < 2 * fs := by linarith
  exact (mul_lt_mul_left h2fs).mpr this

theorem butterAngle_pos {n k : ℕ} (hk : k < n) : 0 < butterAngle n k := by
  have hn : (0:ℝ) < 2 * n := by
    have : 0 < n := by omega
    positivity
  unfold butterAngle
  apply div_pos _ hn
  have hpi := Real.pi_pos
  positivity

theorem butterAngle_lt_pi {n k : ℕ} (hk : k < n) : butterAngle n k < Real.pi := by
  have hn : (0:ℝ) < 2 * n := by
    have : 0 < n := by omega
    positivity
  unfold butterAngle
  rw [div_lt_iff₀ hn]
  have hkn : (k : ℝ) + 1 ≤ n := by exact_mod_cast hk
  nlinarith [Real.pi_pos]

theorem sin_butterAngle_pos {n k : ℕ} (hk : k < n) : 0 < Real.sin (butterAngle n k) :=
  Real.sin_pos_of_pos_of_lt_pi (butterAngle_pos hk) (butterAngle_lt_pi hk)

theorem butterPole_re_neg {n k : ℕ} (hk : k < n) : (butterPole n k).re < 0 := by
  have := sin_butterAngle_pos hk
  unfold butterPole
  simpa using this

theorem normSq_butterPole (n k : ℕ) : Complex.normSq (butterPole n k) = 1 := by
  unfold butterPole
  rw [Complex.normSq_apply]
  simp only
  nlinarith [Real.sin_sq_add_cos_sq (butterAngle n k)]

theorem butterAngle_mid (k : ℕ) : butterAngle (2 * k + 1) k = Real.pi / 2 := by
  unfold butterAngle
  have hne : (2 * (k:ℝ) + 1) ≠ 0 := by positivity
  push_cast
  field_simp
  ring

theorem butterPole_mid_im (k : ℕ) : (butterPole (2 * k + 1) k).im = 0 := by
  unfold butterPole
  simp only
  rw [butterAngle_mid, Real.cos_pi_div_two]

/-! ## Per-design stability lemmas -/

theorem lpSection_stable {n k : ℕ} {fc fs : ℝ} (hk : k < n) (h0 : 0 < fc)
    (h1 : fc < fs / 2) : sectionStable (lpSection n fc fs k) := by
  have hfs : 0 < fs := by linarith
  have hre : (((warp fs fc : ℝ) : ℂ) * butterPole n k).re < 0 := by
    rw [Complex.re_ofReal_mul]
    exact mul_neg_of_pos_of_neg (warp_pos h0 h1) (butterPole_re_neg hk)
  have hz : Complex.abs (lpPole n k fc fs) < 1 := bilinear_abs_lt_one hfs hre
  simp only [lpSection]
  split
  · exact polyStable_realpole hz
  · exact polyStable_pair hz

theorem hpSection_stable {n k : ℕ} {fc fs : ℝ} (hk : k < n) (h0 : 0 < fc)
    (h1 : fc < fs / 2) : sectionStable (hpSection n fc fs k) := by
  have hfs : 0 < fs := by linarith
  have hre : (((warp fs fc : ℝ) : ℂ) / butterPole n k).re < 0 := by
    rw [div_eq_mul_inv, Complex.re_ofReal_mul, Complex.inv_re, normSq_butterPole]
    simp only [div_one]
    exact mul_neg_of_pos_of_neg (warp_pos h0 h1) (butterPole_re_neg hk)
  have hz : Complex.abs (hpPole n k fc fs) < 1 := bilinear_abs_lt_one hfs hre
  simp only [hpSection]
  split
  · exact polyStable_realpole hz
  · exact polyStable_pair hz

theorem bpMidSection_stable {fs : ℝ} (hfs : 0 < fs) {sp sm : ℂ}
    (hsp : sp.re < 0) (hsm : sm.re < 0)
    (hconj : ((starRingEnd ℂ) sp = sp ∧ (starRingEnd ℂ) sm = sm) ∨
             ((starRingEnd ℂ) sp = sm ∧ (starRingEnd ℂ) sm = sp)) :
    polyStable (-((bilinear fs sp + bilinear fs sm).re))
      ((bilinear fs sp * bilinear fs sm).re) := by
  have hzp := bilinear_abs_lt_one hfs hsp
  have hzm := bilinear_abs_lt_one hfs hsm
  have hsum : (bilinear fs sp + bilinear fs sm).im = 0 := by
    apply Complex.conj_eq_iff_im.mp
    rcases hconj with ⟨e1, e2⟩ | ⟨e1, e2⟩
    · rw [map_add, conj_bilinear, conj_bilinear, e1, e2]
    · rw [map_add, conj_bilinear, conj_bilinear, e1, e2]
      exact add_comm _ _
  have hprod : (bilinear fs sp * bilinear fs sm).im = 0 := by
    apply Complex.conj_eq_iff_im.mp
    rcases hconj with ⟨e1, e2⟩ | ⟨e1, e2⟩
    · rw [map_mul, conj_bilinear, conj_bilinear, e1, e2]
    · rw [map_mul, conj_bilinear, conj_bilinear, e1, e2]
      exact mul_comm _ _
  exact polyStable_two_roots hsum hprod hzp hzm

theorem bpSectionsAt_stable {n k : ℕ} {lo hi fs : ℝ} (hk : k < n) (h0 : 0 < lo)
    (h1 : lo < hi) (h2 : hi < fs / 2) :
    ∀ s ∈ bpSectionsAt n lo hi fs k, sectionStable s := by
  intro s hs
  have hfs : 0 < fs := by linarith
  have hBpos : 0 < warp fs hi - warp fs lo := sub_pos.mpr (warp_mono h0 h1 h2)
  have hcpos : 0 < warp fs lo * warp fs hi :=
    mul_pos (warp_pos h0 (h1.trans h2)) (warp_pos (h0.trans h1) h2)
  have hpre : (butterPole n k).re < 0 := butterPole_re_neg hk
  have hsp : (bpPolePlus (butterPole n k) (warp fs hi - warp fs lo)
      (warp fs lo * warp fs hi)).re < 0 :=
    bp_root_re_neg hpre hBpos hcpos (bpPolePlus_quad _ _ _)
  have hsm : (bpPoleMinus (butterPole n k) (warp fs hi - warp fs lo)
      (warp fs lo * warp fs hi)).re < 0 :=
    bp_root_re_neg hpre hBpos hcpos (bpPoleMinus_quad _ _ _)
  have hzp : Complex.abs (bilinear fs (bpPolePlus (butterPole n k)
      (warp fs hi - warp fs lo) (warp fs lo * warp fs hi))) < 1 :=
    bilinear_abs_lt_one hfs hsp
  have hzm : Complex.abs (bilinear fs (bpPoleMinus (butterPole n k)
      (warp fs hi - warp fs lo) (warp fs lo * warp fs hi))) < 1 :=
    bilinear_abs_lt_one hfs hsm
  simp only [bpSectionsAt] at hs
  by_cases hmid : n = 2 * k + 1
  · rw [if_pos hmid] at hs
    simp only [List.mem_singleton] at hs
    subst hs
    have him : (butterPole n k).im = 0 := by
      rw [hmid]
      exact butterPole_mid_im k
    exact bpMidSection_stable hfs hsp hsm
      (conj_bpPoles him (warp fs hi - warp fs lo) (warp fs lo * warp fs hi))
  · rw [if_neg hmid] at hs
    simp only [List.mem_cons, List.not_mem_nil, or_false] at hs
    rcases hs with rfl | rfl
    · exact polyStable_pair hzp
    · exact polyStable_pair hzm

theorem notchSection_stable {f0 q fs : ℝ} (h0 : 0 < f0) (h1 : f0 < fs / 2)
    (hq : 0 < q) (hm : Real.pi * (f0 / q) / fs < 2) :
    sectionStable (notchSection f0 q fs) := by
  have hfs : 0 < fs := by linarith
  have hrpos : 0 < Real.pi * (f0 / q) / fs := by positivity
  have hn : Complex.normSq
      (⟨(1 - Real.pi * (f0 / q) / fs) * Real.cos (2 * Real.pi * f0 / fs),
        (1 - Real.pi * (f0 / q) / fs) * Real.sin (2 * Real.pi * f0 / fs)⟩ : ℂ)
      = (1 - Real.pi * (f0 / q) / fs) ^ 2 := by
    rw [Complex.normSq_mk]
    nlinarith [Real.sin_sq_add_cos_sq (2 * Real.pi * f0 / fs)]
  have habs : Complex.abs
      (⟨(1 - Real.pi * (f0 / q) / fs) * Real.cos (2 * Real.pi * f0 / fs),
        (1 - Real.pi * (f0 / q) / fs) * Real.sin (2 * Real.pi * f0 / fs)⟩ : ℂ) < 1 := by
    rw [Complex.abs_apply, hn, Real.sqrt_sq_eq_abs, abs_lt]
    constructor <;> linarith
  have h := polyStable_pair habs
  rw [hn] at h
  have e1 : -(2 * (⟨(1 - Real.pi * (f0 / q) / fs) * Real.cos (2 * Real.pi * f0 / fs),
        (1 - Real.pi * (f0 / q) / fs) * Real.sin (2 * Real.pi * f0 / fs)⟩ : ℂ).re)
      = -(2 * (1 - Real.pi * (f0 / q) / fs) * Real.cos (2 * Real.pi * f0 / fs)) := by
    simp only
    ring
  rw [e1] at h
  exact h

/-! ## Claim C2 -/

/-- C2 counterexample: `notch_filter_init 200 (1/2) 500` succeeds — its
parameters satisfy every validity condition (`0 < f0 < fs/2`, `q > 0`) — yet
its section violates the stability invariant: the pole radius is
`r = 1 − π·(f0/q)/fs = 1 − 4π/5 < −1`, so the roots of `Z² + a1·Z + a2` have
magnitude `|r| > 1`. -/
theorem C2_counterexample :
    notch_filter_init 200 (1 / 2) 500
        = .ok ⟨[notchSection 200 (1 / 2) 500], .double⟩ ∧
      ¬ sectionStable (notchSection 200 (1 / 2) 500) := by
  refine ⟨notch_init_ok (by norm_num) (by norm_num), ?_⟩
  intro hstab
  have hpi := Real.pi_gt_three
  set r : ℝ := 1 - Real.pi * (200 / (1 / 2)) / 500 with hr
  set th : ℝ := 2 * Real.pi * 200 / 500 with hth
  have hroot : ((r : ℂ) * ((Real.cos th : ℂ) + (Real.sin th : ℂ) * Complex.I)) ^ 2
      + (((notchSection 200 (1 / 2) 500).a1 : ℝ) : ℂ)
        * ((r : ℂ) * ((Real.cos th : ℂ) + (Real.sin th : ℂ) * Complex.I))
      + (((notchSection 200 (1 / 2) 500).a2 : ℝ) : ℂ) = 0 := by
    have ha1 : (notchSection 200 (1 / 2) 500).a1 = -(2 * r * Real.cos th) := rfl
    have ha2 : (notchSection 200 (1 / 2) 500).a2 = r ^ 2 := rfl
    rw [ha1, ha2]
    push_cast
    linear_combination ((r : ℂ) ^ 2 * Complex.sin (th : ℂ) ^ 2) * Complex.I_sq
      + (-(r : ℂ) ^ 2) * Complex.sin_sq_add_cos_sq (th : ℂ)
  have habs := hstab _ hroot
  have habsw : Complex.abs ((r : ℂ) * ((Real.cos th : ℂ) + (Real.sin th : ℂ) * Complex.I))
      = |r| := by
    rw [map_mul, Complex.abs_ofReal]
    rw [show Complex.abs ((Real.cos th : ℂ) + (Real.sin th : ℂ) * Complex.I) = 1 by
      rw [Complex.ofReal_cos, Complex.ofReal_sin]
      exact Complex.abs_cos_add_sin_mul_I th]
    ring
  rw [habsw] at habs
  have hrneg : r < -1 := by
    rw [hr]
    norm_num
    linarith
  rw [abs_of_neg (by linarith : r < 0)] at habs
  linarith

/-- C2 amended: for every filter produced by a successful Butterworth design
with spec-valid frequencies (the FilterSpec invariant: cutoffs strictly
between 0 and Nyquist, and `low < high` for band-pass), every section
satisfies the stability invariant — both roots of `Z² + a1·Z + a2` lie
strictly inside the unit circle, by construction.  For the notch design the
invariant additionally requires `π·(f0/Q)/Fs < 2` (equivalently pole radius
`r > −1`); without it a successful notch design can be unstable. -/
theorem C2_amended_stability :
    (∀ (o : ℤ) (fc fs : ℝ) (F : Filter), 0 < fc → fc < fs / 2 →
      butter_lowpass_init o fc fs = .ok F → ∀ s ∈ F.sections, sectionStable s) ∧
    (∀ (o : ℤ) (fc fs : ℝ) (F : Filter), 0 < fc → fc < fs / 2 →
      butter_highpass_init o fc fs = .ok F → ∀ s ∈ F.sections, sectionStable s) ∧
    (∀ (o : ℤ) (lo hi fs : ℝ) (F : Filter), 0 < lo → lo < hi → hi < fs / 2 →
      butter_bandpass_init o lo hi fs = .ok F → ∀ s ∈ F.sections, sectionStable s) ∧
    (∀ (f0 q fs : ℝ) (F : Filter), 0 < f0 → f0 < fs / 2 → 0 < q →
      Real.pi * (f0 / q) / fs < 2 →
      notch_filter_init f0 q fs = .ok F → ∀ s ∈ F.sections, sectionStable s) := by
  refine ⟨?_, ?_, ?_, ?_⟩
  · intro o fc fs F h0 h1 hok s hs
    unfold butter_lowpass_init at hok
    split_ifs at hok with hc1 hc2
    simp only [Except.ok.injEq] at hok
    subst hok
    simp only [List.mem_map, List.mem_range] at hs
    obtain ⟨k, hk, rfl⟩ := hs
    have hkn : k < o.toNat := by
      rcases not_or.mp hc1 with ⟨ho, -⟩
      omega
    exact lpSection_stable hkn h0 h1
  · intro o fc fs F h0 h1 hok s hs
    unfold butter_highpass_init at hok
    split_ifs at hok with hc1 hc2
    simp only [Except.ok.injEq] at hok
    subst hok
    simp only [List.mem_map, List.mem_range] at hs
    obtain ⟨k, hk, rfl⟩ := hs
    have hkn : k < o.toNat := by
      rcases not_or.mp hc1 with ⟨ho, -⟩
      omega
    exact hpSection_stable hkn h0 h1
  · intro o lo hi fs F h0 h1 h2 hok s hs
    unfold butter_bandpass_init at hok
    split_ifs at hok with hc1 hc2
    simp only [Except.ok.injEq] at hok
    subst hok
    simp only [List.mem_flatMap, List.mem_range] at hs
    obtain ⟨k, hk, hsk⟩ := hs
    have hkn : k < o.toNat := by
      rcases not_or.mp hc1 with ⟨ho, -⟩
      omega
    exact bpSectionsAt_stable hkn h0 h1 h2 s hsk
  · intro f0 q fs F h0 h1 hq hm hok s hs
    rw [notch_init_ok h1 hq] at hok
    simp only [Except.ok.injEq] at hok
    subst hok
    simp only [List.mem_singleton] at hs
    subst hs
    exact notchSection_stable h0 h1 hq hm

/-- Witness for C2: the section designed by `notch_filter_init 50 30 500`
(the harness's notch) is stable. -/
theorem C2_witness : sectionStable (notchSection 50 30 500) :=
  C2_amended_stability.2.2.2 50 30 500 ⟨[notchSection 50 30 500], .double⟩
    (by norm_num) (by norm_num) (by norm_num)
    (by nlinarith [Real.pi_lt_four])
    (notch_init_ok (by norm_num) (by norm_num))
    (notchSection 50 30 500) (by simp)

end

end Iirdsp
